import Mathlib

/-!
Verification of the front-matter extraction and catalog-entry derivation pipeline
of the anymcp-io static-site generator.

The embedding models the two data files of the repository:
* `servers.js`: `scanDirectory` (the default export), `parseCSharpMcpServer`,
  `extractToolsFromCSharp`, `extractCodeWithoutFrontMatter`;
* `serversArray.js`: the default export that flattens the id-to-record mapping.

Text is modelled as `List Char` (`Str`).  JavaScript strings are UTF-16 sequences;
all characters relevant to the pipeline logic are plain code points, so a character
list is a faithful model.  The external YAML decoder (the `yaml` package) and the
filesystem are modelled as explicit function parameters.
-/

/-- Character lists stand for JavaScript strings. -/
abbrev Str := List Char

/-- Shorthand turning a Lean string literal into the `Str` model. -/
def str (s : String) : Str := s.toList

/-- The newline character, on which `contents.split('\n')` splits. -/
def nlChar : Char := Char.ofNat 10

/-- The double-quote character. -/
def dquoteChar : Char := Char.ofNat 34

/-- The apostrophe character. -/
def apoChar : Char := Char.ofNat 39

/-- Whitespace as recognised by JavaScript `trim()` and the regex class `\s`
(the ASCII whitespace characters; the pipeline's inputs contain no exotic
Unicode spaces). -/
def isWsChar (c : Char) : Bool :=
  c = ' ' || c = Char.ofNat 9 || c = nlChar || c = Char.ofNat 13 ||
  c = Char.ofNat 11 || c = Char.ofNat 12

/-- The regex word-character class `\w`: ASCII letters, digits and underscore. -/
def isWordChar (c : Char) : Bool := c.isAlpha || c.isDigit || c = '_'

/-- JavaScript `String.prototype.trim`: strip whitespace from both ends. -/
def trimChars (s : Str) : Str :=
  ((s.dropWhile isWsChar).reverse.dropWhile isWsChar).reverse

/-- JavaScript `contents.split('\n')`: the empty string splits to one empty
piece, and a trailing newline yields a final empty piece. -/
def splitLines : Str → List Str
  | [] => [[]]
  | c :: cs =>
    if c = nlChar then [] :: splitLines cs
    else
      match splitLines cs with
      | [] => [[c]]
      | l :: ls => (c :: l) :: ls

/-- JavaScript `lines.join('\n')`. -/
def joinLines : List Str → Str
  | [] => []
  | [l] => l
  | l :: ls => l ++ nlChar :: joinLines ls

/-- Boolean test that `pat` begins `s` (JavaScript `s.startsWith(pat)`). -/
def strHasPre : Str → Str → Bool
  | [], _ => true
  | _ :: _, [] => false
  | p :: ps, c :: cs => p == c && strHasPre ps cs

/-- Boolean test that `pat` ends `s` (JavaScript `s.endsWith(pat)`). -/
def strHasSuf (pat s : Str) : Bool := strHasPre pat.reverse s.reverse

/-- Boolean substring test (JavaScript `s.includes(pat)`). -/
def containsSub (pat : Str) : Str → Bool
  | [] => strHasPre pat []
  | c :: cs => strHasPre pat (c :: cs) || containsSub pat cs

/-- Fuel-indexed core of `String.prototype.replace` with a global literal
pattern `p :: ps` and replacement `rep`: a single left-to-right pass replacing
non-overlapping occurrences.  With `fuel ≥ s.length` the fuel never runs out. -/
def replaceAllAux (p : Char) (ps rep : List Char) : Nat → Str → Str
  | _, [] => []
  | 0, c :: cs => c :: cs
  | Nat.succ fuel, c :: cs =>
    if strHasPre (p :: ps) (c :: cs) then
      rep ++ replaceAllAux p ps rep fuel (cs.drop ps.length)
    else
      c :: replaceAllAux p ps rep fuel cs

/-- JavaScript `s.replace(/pat/g, rep)` for the literal pattern `p :: ps`. -/
def replaceAll (p : Char) (ps rep : List Char) (s : Str) : Str :=
  replaceAllAux p ps rep s.length s

/-- `.replace(/&quot;/g, '"')` -/
def decQuot (s : Str) : Str := replaceAll '&' (str "quot;") [dquoteChar] s

/-- `.replace(/&#39;/g, "'")` -/
def decApos (s : Str) : Str := replaceAll '&' (str "#39;") [apoChar] s

/-- `.replace(/&lt;/g, '<')` -/
def decLt (s : Str) : Str := replaceAll '&' (str "lt;") ['<'] s

/-- `.replace(/&gt;/g, '>')` -/
def decGt (s : Str) : Str := replaceAll '&' (str "gt;") ['>'] s

/-- `.replace(/&amp;/g, '&')` -/
def decAmp (s : Str) : Str := replaceAll '&' (str "amp;") ['&'] s

/-- The HTML-entity decode chain at the end of `extractCodeWithoutFrontMatter`,
in the source's order: `&quot;`, `&#39;`, `&lt;`, `&gt;`, `&amp;`. -/
def decodeHtmlEntities (s : Str) : Str := decAmp (decGt (decLt (decApos (decQuot s))))

/-- One extracted tool: the object `{ name, description }` pushed by
`extractToolsFromCSharp`. -/
structure Tool where
  name : Str
  description : Str
deriving DecidableEq

/-- The decoded value of the `tags` front-matter field: either a YAML sequence
or a single scalar. -/
inductive TagsVal where
  | arr : List Str → TagsVal
  | scalar : Str → TagsVal
deriving DecidableEq

/-- The mapping decoded from the YAML front matter.  Each field is `none` when
the key is absent from the decoded mapping.  String-valued fields carry their
decoded text; `downloads` is numeric. -/
structure Metadata where
  id : Option Str := none
  name : Option Str := none
  description : Option Str := none
  longDescription : Option Str := none
  tags : Option TagsVal := none
  status : Option Str := none
  downloads : Option Int := none
  lastUpdated : Option Str := none
  version : Option Str := none
  author : Option Str := none
  license : Option Str := none
  createdDate : Option Str := none
  envVars : Option (List Str) := none
deriving DecidableEq

/-- The empty metadata mapping (`metadata = {}` in the source). -/
def Metadata.empty : Metadata := {}

/-- The server object built by `parseCSharpMcpServer`. -/
structure Server where
  id : Str
  name : Str
  description : Str
  longDescription : Str
  tags : List Str
  status : Str
  downloads : Int
  lastUpdated : Str
  version : Str
  author : Str
  license : Str
  createdDate : Str
  envVars : List Str
  tools : List Tool
  code : Str
  displayCode : Str
deriving DecidableEq

/-- The sentinel delimiter line of the front-matter block. -/
def fmSentinel : Str := str "// ---"

/-- The comment marker stripped from candidate metadata lines. -/
def fmMarker : Str := str "//"

/-- `yamlLine` post-processing inside the front-matter loop of
`parseCSharpMcpServer`: given the trimmed comment line `t`, drop the
two-character `//` marker; keep the remainder verbatim when it starts with a
space (YAML indentation), else push its trimmed form when non-blank, else an
empty line. -/
def fmLine (t : Str) : Str :=
  if (t.drop 2).head? = some ' ' then t.drop 2
  else if (trimChars (t.drop 2)).isEmpty then []
  else trimChars (t.drop 2)

/-- The front-matter extraction loop of `parseCSharpMcpServer`: scan the lines,
entering the block at the first sentinel, leaving (and stopping entirely) at the
second, collecting the processed `//`-comment lines in between. -/
def fmGo : List Str → Bool → List Str
  | [], _ => []
  | l :: ls, inFM =>
    if trimChars l = fmSentinel then
      if inFM then [] else fmGo ls true
    else if inFM && strHasPre fmMarker (trimChars l) then
      fmLine (trimChars l) :: fmGo ls inFM
    else fmGo ls inFM

/-- The `frontMatterLines` array collected by `parseCSharpMcpServer`. -/
def extractFrontMatterLines (contents : Str) : List Str :=
  fmGo (splitLines contents) false

/-- Scan for the first line whose trimmed form is the sentinel, returning the
lines after it (used twice by `extractCodeWithoutFrontMatter` to find the end
of the front matter). -/
def afterSentinel1 : List Str → Option (List Str)
  | [] => none
  | l :: ls => if trimChars l = fmSentinel then some ls else afterSentinel1 ls

/-- `extractCodeWithoutFrontMatter`: when both sentinels are found, take
everything after the second sentinel line, joined and trimmed; otherwise the
whole contents trimmed.  Finally decode the five HTML-entity sequences. -/
def extractCodeWithoutFrontMatter (contents : Str) : Str :=
  decodeHtmlEntities
    (match afterSentinel1 (splitLines contents) with
     | none => trimChars contents
     | some rest =>
       match afterSentinel1 rest with
       | none => trimChars contents
       | some rest2 => trimChars (joinLines rest2))

/-- The literal head of the description pattern: `Description("`. -/
def descOpen : Str := str "Description(" ++ [dquoteChar]

/-- The tool-attribute marker looked up with `includes`. -/
def toolMarker : Str := str "[McpServerTool"

/-- The description-call marker looked up with `includes`. -/
def descMarker : Str := str "Description("

/-- The literal head of the method pattern: `public static`. -/
def pubStat : Str := str "public static"

/-- Attempt the regex `Description\("([^"]+)"\)` at the start of `s`:
the literal `Description("`, then one or more non-quote characters, then `")`.
The regex is deterministic here: `[^"]+` cannot pass a quote, so it always ends
at the first quote, which must be followed by `)`. -/
def tryDescAt (s : Str) : Option Str :=
  if strHasPre descOpen s then
    if ((s.drop descOpen.length).takeWhile (fun c => c != dquoteChar)).isEmpty then none
    else if strHasPre (dquoteChar :: [')'])
        ((s.drop descOpen.length).drop
          ((s.drop descOpen.length).takeWhile (fun c => c != dquoteChar)).length) then
      some ((s.drop descOpen.length).takeWhile (fun c => c != dquoteChar))
    else none
  else none

/-- `line.match(/Description\("([^"]+)"\)/)`: leftmost match, scanning start
positions left to right. -/
def findDescMatch : Str → Option Str
  | [] => none
  | c :: cs =>
    match tryDescAt (c :: cs) with
    | some b => some b
    | none => findDescMatch cs

/-- Match the tail `\s+\w+\s+(\w+)\s*\(` of the method regex against `r`,
returning the capture `(\w+)`. -/
def methodTail (r : Str) : Option Str :=
  let ws1 := r.takeWhile isWsChar
  let r2 := r.drop ws1.length
  let w1 := r2.takeWhile isWordChar
  let r3 := r2.drop w1.length
  let ws2 := r3.takeWhile isWsChar
  let r4 := r3.drop ws2.length
  let w2 := r4.takeWhile isWordChar
  let r5 := r4.drop w2.length
  let r6 := r5.drop (r5.takeWhile isWsChar).length
  if ws1.isEmpty || w1.isEmpty || ws2.isEmpty || w2.isEmpty then none
  else if r6.head? = some '(' then some w2
  else none

/-- Attempt the regex `public static\s+\w+\s+(\w+)\s*\(` at the start of `s`.
Each greedy run (`\s+`, `\w+`, `\s+`, `(\w+)`, `\s*`) is followed by a token of
a disjoint character class, so the greedy reading is the only possible one and
the attempt is deterministic.  Returns the captured method name. -/
def tryMethodAt (s : Str) : Option Str :=
  if strHasPre pubStat s then methodTail (s.drop pubStat.length)
  else none

/-- `methodLine.match(/public static\s+\w+\s+(\w+)\s*\(/)`: leftmost match. -/
def findMethodMatch : Str → Option Str
  | [] => none
  | c :: cs =>
    match tryMethodAt (c :: cs) with
    | some n => some n
    | none => findMethodMatch cs

/-- The inner lookahead loop of `extractToolsFromCSharp`: walk the (at most 9)
following lines; on a line containing `public static` and `(` attempt the
method regex; the first successful match ends the scan (`break`), and a line
whose regex attempt fails is simply skipped. -/
def scanWindow : List Str → Option Str
  | [] => none
  | l :: ls =>
    if containsSub pubStat (trimChars l) && containsSub (str "(") (trimChars l) then
      match findMethodMatch (trimChars l) with
      | some n => some n
      | none => scanWindow ls
    else scanWindow ls

/-- The outer loop of `extractToolsFromCSharp` over the file's lines: on a line
containing both `[McpServerTool` and `Description(`, match the description
regex; when it matches, scan the next 9 lines for a method signature and emit
one tool on success.  In every other case nothing is emitted and the outer scan
moves on to the next line. -/
def toolsGo : List Str → List Tool
  | [] => []
  | l :: rest =>
    if containsSub toolMarker (trimChars l) && containsSub descMarker (trimChars l) then
      match findDescMatch (trimChars l) with
      | some desc =>
        match scanWindow (rest.take 9) with
        | some n => { name := n, description := desc } :: toolsGo rest
        | none => toolsGo rest
      | none => toolsGo rest
    else toolsGo rest

/-- `extractToolsFromCSharp(contents)`. -/
def extractToolsFromCSharp (contents : Str) : List Tool :=
  toolsGo (splitLines contents)

/-- JavaScript `a || b` for a possibly-absent string: the fallback is taken
when the field is absent or its value is falsy (the empty string). -/
def orStr : Option Str → Str → Str
  | some s, d => if s.isEmpty then d else s
  | none, d => d

/-- JavaScript `a || b` for a possibly-absent number: the fallback is taken
when the field is absent or its value is falsy (zero). -/
def orInt : Option Int → Int → Int
  | some n, d => if n = 0 then d else n
  | none, d => d

/-- The `server` object literal of `parseCSharpMcpServer`, field by field in
source order.  `buildDate` stands for `new Date().toISOString().split('T')[0]`;
the source evaluates that expression twice (for `lastUpdated` and
`createdDate`), and both occurrences are modelled by the same per-build value.
`stem` stands for `basename(filePath, '.cs')`. -/
def resolveServer (metadata : Metadata) (stem buildDate : Str) (tools : List Tool)
    (contents displayCode : Str) : Server :=
  { id := orStr metadata.id stem
    name := orStr metadata.name (stem ++ str ".cs")
    description := orStr metadata.description (str "MCP Server")
    longDescription := orStr metadata.longDescription
      (orStr metadata.description (str "MCP Server"))
    tags :=
      match metadata.tags with
      | some (TagsVal.arr l) => l
      | some (TagsVal.scalar v) => if v.isEmpty then [] else [v]
      | none => []
    status := orStr metadata.status (str "stable")
    downloads := orInt metadata.downloads 0
    lastUpdated := orStr metadata.lastUpdated buildDate
    version := orStr metadata.version (str "1.0.0")
    author := orStr metadata.author (str "Unknown")
    license := orStr metadata.license (str "MIT")
    createdDate := orStr metadata.createdDate (orStr metadata.lastUpdated buildDate)
    envVars := metadata.envVars.getD []
    tools := tools
    code := contents
    displayCode := displayCode }

/-- `parseCSharpMcpServer(contents, filePath)`.  `decodeYaml` models
`parseYaml(frontMatterLines.join('\n'))` of the external `yaml` package, taking
the collected lines; the result `none` covers both a thrown decode error
(caught by the local try block, logged) and a `null` result (the `|| {}`),
both of which leave `metadata` empty.  The decoder is only consulted when the
collected front-matter lines are non-empty, exactly as in the source. -/
def parseCSharpMcpServer (decodeYaml : List Str → Option Metadata) (buildDate : Str)
    (contents : Str) (stem : Str) : Server :=
  resolveServer
    (if (extractFrontMatterLines contents).isEmpty then Metadata.empty
     else (decodeYaml (extractFrontMatterLines contents)).getD Metadata.empty)
    stem buildDate
    (extractToolsFromCSharp contents) contents
    (extractCodeWithoutFrontMatter contents)

/-- JavaScript object key assignment `servers[key] = v` on a string-keyed plain
object, modelled on an insertion-ordered association list: an existing key is
overwritten in place, a new key is appended. -/
def objSet (m : List (Str × Server)) (k : Str) (v : Server) : List (Str × Server) :=
  if m.any (fun kv => kv.1 == k) then
    m.map (fun kv => if kv.1 == k then (k, v) else kv)
  else m ++ [(k, v)]

/-- `extname(f) === '.cs'`: a filename qualifies when it ends in `.cs` and the
dot is not the leading character of the basename (Node's `extname` yields the
empty string for the dotfile `.cs` itself). -/
def isCsFile (f : Str) : Bool := decide (4 ≤ f.length) && strHasSuf (str ".cs") f

/-- `basename(join(mcpDir, file), '.cs')` for a file that passed the `.cs`
filter: the name with its three-character extension removed. -/
def stemOf (f : Str) : Str := f.take (f.length - 3)

/-- The `for (const file of files)` loop of the `servers.js` default export.
`readFile f = none` models `readFileSync` throwing for that path; the
exception leaves the loop and is caught by the function's single try/catch,
which only logs — the accumulator built so far is what the function then
returns. -/
def scanLoop (readFile : Str → Option Str) (decodeYaml : List Str → Option Metadata)
    (buildDate : Str) : List Str → List (Str × Server) → List (Str × Server)
  | [], acc => acc
  | f :: fs, acc =>
    match readFile f with
    | none => acc
    | some contents =>
      scanLoop readFile decodeYaml buildDate fs
        (objSet acc (parseCSharpMcpServer decodeYaml buildDate contents (stemOf f)).id
          (parseCSharpMcpServer decodeYaml buildDate contents (stemOf f)))

/-- The `servers.js` default export.  `readDirResult = none` models
`readdirSync` throwing (directory missing/unreadable): the catch logs and the
still-empty mapping is returned.  Otherwise the listing is filtered to `.cs`
files and each is read and parsed in order. -/
def scanDirectory (readDirResult : Option (List Str)) (readFile : Str → Option Str)
    (decodeYaml : List Str → Option Metadata) (buildDate : Str) : List (Str × Server) :=
  match readDirResult with
  | none => []
  | some entries => scanLoop readFile decodeYaml buildDate (entries.filter isCsFile) []

/-- The object literal `(\x7b id: key, ...value \x7d)` built by the
`serversArray.js` default export for one mapping entry.  The spread of `value`
comes after the `id: key` field, so every field of `value` — including its
always-present `id` — overwrites; the result is `value` itself and `key` is
never used. -/
def entrySpread (_key : Str) (v : Server) : Server :=
  { id := v.id
    name := v.name
    description := v.description
    longDescription := v.longDescription
    tags := v.tags
    status := v.status
    downloads := v.downloads
    lastUpdated := v.lastUpdated
    version := v.version
    author := v.author
    license := v.license
    createdDate := v.createdDate
    envVars := v.envVars
    tools := v.tools
    code := v.code
    displayCode := v.displayCode }

/-- The `serversArray.js` default export:
`Object.entries(serversData).map(([key, value]) => (\x7b id: key, ...value \x7d))`,
with `Object.entries` iterating in insertion order. -/
def serversArrayData (m : List (Str × Server)) : List Server :=
  m.map (fun kv => entrySpread kv.1 kv.2)

/-- A concrete decoded metadata mapping used to exercise explicit-field
resolution: `id`, `description`, `downloads`, `envVars` present (truthy),
everything else absent. -/
def c3meta : Metadata :=
  { id := some (str "sid")
    description := some (str "D")
    downloads := some 7
    envVars := some [ str "K"] }

/-- A concrete file text with a well-formed front-matter block. -/
def c3text : Str := str "// ---\n// id: sid\n// ---\nvar x = 1;"

/-- A decoded metadata mapping whose `tags` field is the truthy scalar
`alpha`. -/
def c4meta : Metadata := { tags := some (TagsVal.scalar (str "alpha")) }

/-- A decoded metadata mapping whose `tags` field is the falsy scalar
(the empty string). -/
def c4metaEmpty : Metadata := { tags := some (TagsVal.scalar []) }

/-- A concrete attribute line: `[McpServerTool, Description("Does X")]`. -/
def c5attrLine : Str :=
  str "[McpServerTool, Description(" ++ [dquoteChar] ++ str "Does X" ++ [dquoteChar] ++ str ")]"

/-- A concrete method-signature line. -/
def c5methodLine : Str := str "    public static string DoX(int n)"

/-- A concrete server record whose `id` field differs from the key it is
stored under in the demo mapping below. -/
def c6server : Server :=
  { id := str "other"
    name := str "other.cs"
    description := str "MCP Server"
    longDescription := str "MCP Server"
    tags := []
    status := str "stable"
    downloads := 0
    lastUpdated := str "2025-01-01"
    version := str "1.0.0"
    author := str "Unknown"
    license := str "MIT"
    createdDate := str "2025-01-01"
    envVars := []
    tools := []
    code := str "x"
    displayCode := str "x" }

/-!
Helper lemmas.  First, small facts about prefixes, suffixes and infixes of
character lists, then the behaviour of the single-pass replacement.
-/

lemma nilPre (s : Str) : ([] : Str) <+: s := ⟨s, rfl⟩

lemma preInfix {q s : Str} (h : q <+: s) : q <:+: s := by
  obtain ⟨t, ht⟩ := h
  exact ⟨[], t, by simpa using ht⟩

lemma sufInfix {q s : Str} (h : q <:+ s) : q <:+: s := by
  obtain ⟨t, ht⟩ := h
  exact ⟨t, [], by simpa using ht⟩

lemma infixTail {q t : Str} (c : Char) (h : q <:+: t) : q <:+: c :: t := by
  obtain ⟨u, v, huv⟩ := h
  exact ⟨c :: u, v, by rw [← huv]; simp⟩

lemma infixNilIff (q : Str) : q <:+: ([] : Str) ↔ q = [] := by
  constructor
  · rintro ⟨u, v, huv⟩
    rcases List.append_eq_nil.mp huv with ⟨h1, -⟩
    exact (List.append_eq_nil.mp h1).2
  · rintro rfl
    exact ⟨[], [], rfl⟩

lemma preConsCases {qh c : Char} {qt t : Str} :
    (qh :: qt) <+: (c :: t) ↔ qh = c ∧ qt <+: t := by
  constructor
  · rintro ⟨r, hr⟩
    simp only [List.cons_append] at hr
    injection hr with h1 h2
    exact ⟨h1, r, h2⟩
  · rintro ⟨rfl, r, hr⟩
    exact ⟨r, by simp [hr]⟩

lemma infixDropAny {q s : Str} (n : Nat) (h : q <:+: s.drop n) : q <:+: s :=
  h.trans (sufInfix (List.drop_suffix n s))

lemma strHasPre_iff : ∀ (p s : Str), strHasPre p s = true ↔ p <+: s := by
  intro p
  induction p with
  | nil =>
    intro s
    constructor
    · intro _; exact nilPre s
    · intro _; rfl
  | cons ph pt ih =>
    intro s
    cases s with
    | nil =>
      constructor
      · intro h; simp [strHasPre] at h
      · rintro ⟨r, hr⟩; simp at hr
    | cons c cs =>
      simp [strHasPre, preConsCases, ih cs, Bool.and_eq_true, beq_iff_eq]

lemma containsSub_iff : ∀ (pat s : Str), containsSub pat s = true ↔ pat <:+: s := by
  intro pat s
  induction s with
  | nil =>
    simp only [containsSub, infixNilIff]
    cases pat with
    | nil => simp [strHasPre]
    | cons p ps => simp [strHasPre]
  | cons c cs ih =>
    simp [containsSub, Bool.or_eq_true, strHasPre_iff, ih, List.infix_cons_iff]

lemma containsSub_eq_false_iff (pat s : Str) : containsSub pat s = false ↔ ¬ pat <:+: s := by
  rw [← containsSub_iff]
  cases h : containsSub pat s <;> simp

/-- An infix avoiding every character of the block `a` lies beyond `a`. -/
lemma infixSkipBlock {q : Str} (hq : q ≠ []) :
    ∀ (a t : Str), (∀ c ∈ a, c ∉ q) → q <:+: a ++ t → q <:+: t := by
  intro a
  induction a with
  | nil => intro t _ h; simpa using h
  | cons x xs ih =>
    intro t hd h
    rw [List.cons_append] at h
    rcases List.infix_cons_iff.mp h with hpre | hin
    · cases q with
      | nil => exact absurd rfl hq
      | cons qh qt =>
        rcases preConsCases.mp hpre with ⟨heq, -⟩
        have hmem : x ∈ qh :: qt := by rw [← heq]; exact List.mem_cons_self qh qt
        exact absurd hmem (hd x (List.mem_cons_self x xs))
    · exact ih t (fun c hc => hd c (List.mem_cons_of_mem x hc)) hin

lemma lengthLeSuccOfCons {c : Char} {cs : Str} {n : Nat}
    (h : (c :: cs).length ≤ n + 1) : cs.length ≤ n := by
  simp only [List.length_cons] at h
  omega

lemma replaceAllAux_id (p : Char) (ps rep : List Char) :
    ∀ (fuel : Nat) (s : Str), s.length ≤ fuel → ¬ (p :: ps) <:+: s →
      replaceAllAux p ps rep fuel s = s := by
  intro fuel
  induction fuel with
  | zero =>
    intro s hs _
    have hnil : s = [] := List.eq_nil_of_length_eq_zero (Nat.le_zero.mp hs)
    subst hnil; rfl
  | succ n ih =>
    intro s hs hno
    cases s with
    | nil => rfl
    | cons c cs =>
      by_cases hp : strHasPre (p :: ps) (c :: cs) = true
      · exact absurd (preInfix ((strHasPre_iff _ _).mp hp)) hno
      · simp only [replaceAllAux, hp, Bool.false_eq_true, if_false, List.cons.injEq, true_and]
        exact ih cs (lengthLeSuccOfCons hs) (fun hh => hno (infixTail c hh))

/-- A prefix of the replacement output avoiding every replacement character is
a prefix of the input. -/
lemma preOfReplaceAux (p : Char) (ps rep : List Char) (hrep : rep ≠ []) :
    ∀ (fuel : Nat) (s q : Str), s.length ≤ fuel → (∀ c ∈ rep, c ∉ q) →
      q <+: replaceAllAux p ps rep fuel s → q <+: s := by
  intro fuel
  induction fuel with
  | zero =>
    intro s q hs _ hq
    have hnil : s = [] := List.eq_nil_of_length_eq_zero (Nat.le_zero.mp hs)
    subst hnil; exact hq
  | succ n ih =>
    intro s q hs hd hq
    cases s with
    | nil => exact hq
    | cons c cs =>
      by_cases hp : strHasPre (p :: ps) (c :: cs) = true
      · rw [show replaceAllAux p ps rep (n + 1) (c :: cs)
            = rep ++ replaceAllAux p ps rep n (cs.drop ps.length) from by
          simp [replaceAllAux, hp]] at hq
        cases q with
        | nil => exact nilPre _
        | cons qh qt =>
          cases rep with
          | nil => exact absurd rfl hrep
          | cons rh rt =>
            obtain ⟨tt, htt⟩ := hq
            simp only [List.cons_append, List.append_assoc] at htt
            injection htt with h1 htl
            have hmem : rh ∈ qh :: qt := by rw [h1]; exact List.mem_cons_self rh qt
            exact absurd hmem (hd rh (List.mem_cons_self rh rt))
      · rw [show replaceAllAux p ps rep (n + 1) (c :: cs)
            = c :: replaceAllAux p ps rep n cs from by
          simp [replaceAllAux, hp]] at hq
        cases q with
        | nil => exact nilPre _
        | cons qh qt =>
          rcases preConsCases.mp hq with ⟨rfl, hqt⟩
          have hd' : ∀ x ∈ rep, x ∉ qt :=
            fun x hx hmem => hd x hx (List.mem_cons_of_mem _ hmem)
          exact preConsCases.mpr ⟨rfl, ih cs qt (lengthLeSuccOfCons hs) hd' hqt⟩

/-- Replacement cannot create an occurrence of a string `q` that is disjoint
from the replacement characters: if `q` does not occur in the input it does not
occur in the output. -/
lemma notInfixReplaceAux (p : Char) (ps rep : List Char) (hrep : rep ≠ [])
    (q : Str) (hq : q ≠ []) (hd : ∀ c ∈ rep, c ∉ q) :
    ∀ (fuel : Nat) (s : Str), s.length ≤ fuel → ¬ q <:+: s →
      ¬ q <:+: replaceAllAux p ps rep fuel s := by
  intro fuel
  induction fuel with
  | zero =>
    intro s hs hno
    have hnil : s = [] := List.eq_nil_of_length_eq_zero (Nat.le_zero.mp hs)
    subst hnil; exact hno
  | succ n ih =>
    intro s hs hno
    cases s with
    | nil => exact hno
    | cons c cs =>
      by_cases hp : strHasPre (p :: ps) (c :: cs) = true
      · rw [show replaceAllAux p ps rep (n + 1) (c :: cs)
            = rep ++ replaceAllAux p ps rep n (cs.drop ps.length) from by
          simp [replaceAllAux, hp]]
        intro hinf
        have h2 : q <:+: replaceAllAux p ps rep n (cs.drop ps.length) :=
          infixSkipBlock hq rep _ hd hinf
        have hnod : ¬ q <:+: cs.drop ps.length :=
          fun hh => hno (infixTail c (infixDropAny ps.length hh))
        have hlen : (cs.drop ps.length).length ≤ n := by
          have := List.length_drop ps.length cs
          have h2 := lengthLeSuccOfCons hs
          omega
        exact ih (cs.drop ps.length) hlen hnod h2
      · rw [show replaceAllAux p ps rep (n + 1) (c :: cs)
            = c :: replaceAllAux p ps rep n cs from by
          simp [replaceAllAux, hp]]
        intro hinf
        rcases List.infix_cons_iff.mp hinf with hpre | htail
        · cases q with
          | nil => exact hq rfl
          | cons qh qt =>
            rcases preConsCases.mp hpre with ⟨rfl, hqt⟩
            have hd' : ∀ x ∈ rep, x ∉ qt :=
              fun x hx hmem => hd x hx (List.mem_cons_of_mem _ hmem)
            have : qt <+: cs :=
              preOfReplaceAux p ps rep hrep n cs qt (lengthLeSuccOfCons hs) hd' hqt
            exact hno (preInfix (preConsCases.mpr ⟨rfl, this⟩))
        · exact ih cs (lengthLeSuccOfCons hs) (fun hh => hno (infixTail c hh)) htail

/-- Replacement whose replacement characters are disjoint from the pattern
leaves no occurrence of the pattern in its output. -/
lemma patGoneReplaceAux (p : Char) (ps rep : List Char) (hrep : rep ≠ [])
    (hd : ∀ c ∈ rep, c ∉ (p :: ps)) :
    ∀ (fuel : Nat) (s : Str), s.length ≤ fuel →
      ¬ (p :: ps) <:+: replaceAllAux p ps rep fuel s := by
  intro fuel
  induction fuel with
  | zero =>
    intro s hs
    have hnil : s = [] := List.eq_nil_of_length_eq_zero (Nat.le_zero.mp hs)
    subst hnil
    simp [replaceAllAux, infixNilIff]
  | succ n ih =>
    intro s hs
    cases s with
    | nil => simp [replaceAllAux, infixNilIff]
    | cons c cs =>
      by_cases hp : strHasPre (p :: ps) (c :: cs) = true
      · rw [show replaceAllAux p ps rep (n + 1) (c :: cs)
            = rep ++ replaceAllAux p ps rep n (cs.drop ps.length) from by
          simp [replaceAllAux, hp]]
        intro hinf
        have h2 := infixSkipBlock (by simp) rep _ hd hinf
        have hlen : (cs.drop ps.length).length ≤ n := by
          have := List.length_drop ps.length cs
          have h2 := lengthLeSuccOfCons hs
          omega
        exact ih (cs.drop ps.length) hlen h2
      · rw [show replaceAllAux p ps rep (n + 1) (c :: cs)
            = c :: replaceAllAux p ps rep n cs from by
          simp [replaceAllAux, hp]]
        intro hinf
        rcases List.infix_cons_iff.mp hinf with hpre | htail
        · rcases preConsCases.mp hpre with ⟨rfl, hqt⟩
          have hd' : ∀ x ∈ rep, x ∉ ps :=
            fun x hx hmem => hd x hx (List.mem_cons_of_mem _ hmem)
          have hps : ps <+: cs :=
            preOfReplaceAux p ps rep hrep n cs ps (lengthLeSuccOfCons hs) hd' hqt
          exact hp ((strHasPre_iff _ _).mpr (preConsCases.mpr ⟨rfl, hps⟩))
        · exact ih cs (lengthLeSuccOfCons hs) htail

lemma replaceAll_id {p : Char} {ps rep s : List Char} (h : ¬ (p :: ps) <:+: s) :
    replaceAll p ps rep s = s :=
  replaceAllAux_id p ps rep s.length s le_rfl h

lemma replaceAll_keepAbsent {p : Char} {ps rep : List Char} {q s : Str}
    (hrep : rep ≠ []) (hq : q ≠ []) (hd : ∀ c ∈ rep, c ∉ q) (h : ¬ q <:+: s) :
    ¬ q <:+: replaceAll p ps rep s :=
  notInfixReplaceAux p ps rep hrep q hq hd s.length s le_rfl h

lemma replaceAll_killsPat {p : Char} {ps rep : List Char} (s : Str)
    (hrep : rep ≠ []) (hd : ∀ c ∈ rep, c ∉ (p :: ps)) :
    ¬ (p :: ps) <:+: replaceAll p ps rep s :=
  patGoneReplaceAux p ps rep hrep hd s.length s le_rfl

/-!
Claim C2: idempotence of the HTML-entity decode step.
-/

/-- Claim C2, counterexample to the claim as stated: the five-replacement
decode is not idempotent on every text.  On `&amp;quot;` the first decode
yields `&quot;` (only the `&amp;` rule fires) and the second decode turns that
into a bare quote character. -/
theorem c2_decode_not_idempotent_cex :
    decodeHtmlEntities (decodeHtmlEntities (str "&amp;quot;"))
      ≠ decodeHtmlEntities (str "&amp;quot;") := by decide

/-- Claim C2, amended: the decode is idempotent on every text containing no
occurrence of `&amp;`.  Only the `&amp;` rule's replacement character `&`
occurs in the entity patterns, so on such texts the first decode removes every
entity occurrence without creating new ones, and the second decode finds
nothing to replace. -/
theorem c2_decode_idempotent_no_amp (s : Str)
    (h : containsSub (str "&amp;") s = false) :
    decodeHtmlEntities (decodeHtmlEntities s) = decodeHtmlEntities s := by
  have hamp0 : ¬ ('&' :: str "amp;") <:+: s := by
    have hh := (containsSub_eq_false_iff (str "&amp;") s).mp h
    have he : str "&amp;" = '&' :: str "amp;" := by decide
    rw [he] at hh
    exact hh
  have hamp1 : ¬ ('&' :: str "amp;") <:+: decQuot s := by
    simp only [decQuot]
    exact replaceAll_keepAbsent (by decide) (by decide) (by decide) hamp0
  have hamp2 : ¬ ('&' :: str "amp;") <:+: decApos (decQuot s) := by
    simp only [decApos]
    exact replaceAll_keepAbsent (by decide) (by decide) (by decide) hamp1
  have hamp3 : ¬ ('&' :: str "amp;") <:+: decLt (decApos (decQuot s)) := by
    simp only [decLt]
    exact replaceAll_keepAbsent (by decide) (by decide) (by decide) hamp2
  have hamp4 : ¬ ('&' :: str "amp;") <:+: decGt (decLt (decApos (decQuot s))) := by
    simp only [decGt]
    exact replaceAll_keepAbsent (by decide) (by decide) (by decide) hamp3
  have hq1 : ¬ ('&' :: str "quot;") <:+: decQuot s := by
    simp only [decQuot]
    exact replaceAll_killsPat s (by decide) (by decide)
  have hq2 : ¬ ('&' :: str "quot;") <:+: decApos (decQuot s) := by
    simp only [decApos]
    exact replaceAll_keepAbsent (by decide) (by decide) (by decide) hq1
  have hq3 : ¬ ('&' :: str "quot;") <:+: decLt (decApos (decQuot s)) := by
    simp only [decLt]
    exact replaceAll_keepAbsent (by decide) (by decide) (by decide) hq2
  have hq4 : ¬ ('&' :: str "quot;") <:+: decGt (decLt (decApos (decQuot s))) := by
    simp only [decGt]
    exact replaceAll_keepAbsent (by decide) (by decide) (by decide) hq3
  have ha2 : ¬ ('&' :: str "#39;") <:+: decApos (decQuot s) := by
    simp only [decApos]
    exact replaceAll_killsPat (decQuot s) (by decide) (by decide)
  have ha3 : ¬ ('&' :: str "#39;") <:+: decLt (decApos (decQuot s)) := by
    simp only [decLt]
    exact replaceAll_keepAbsent (by decide) (by decide) (by decide) ha2
  have ha4 : ¬ ('&' :: str "#39;") <:+: decGt (decLt (decApos (decQuot s))) := by
    simp only [decGt]
    exact replaceAll_keepAbsent (by decide) (by decide) (by decide) ha3
  have hl3 : ¬ ('&' :: str "lt;") <:+: decLt (decApos (decQuot s)) := by
    simp only [decLt]
    exact replaceAll_killsPat (decApos (decQuot s)) (by decide) (by decide)
  have hl4 : ¬ ('&' :: str "lt;") <:+: decGt (decLt (decApos (decQuot s))) := by
    simp only [decGt]
    exact replaceAll_keepAbsent (by decide) (by decide) (by decide) hl3
  have hg4 : ¬ ('&' :: str "gt;") <:+: decGt (decLt (decApos (decQuot s))) := by
    simp only [decGt]
    exact replaceAll_killsPat (decLt (decApos (decQuot s))) (by decide) (by decide)
  have e1 : decodeHtmlEntities s = decGt (decLt (decApos (decQuot s))) := by
    simp only [decodeHtmlEntities, decAmp]
    exact replaceAll_id hamp4
  rw [e1]
  have eq1 : decQuot (decGt (decLt (decApos (decQuot s))))
      = decGt (decLt (decApos (decQuot s))) := by
    simp only [decQuot]; exact replaceAll_id hq4
  have ea1 : decApos (decGt (decLt (decApos (decQuot s))))
      = decGt (decLt (decApos (decQuot s))) := by
    simp only [decApos]; exact replaceAll_id ha4
  have el1 : decLt (decGt (decLt (decApos (decQuot s))))
      = decGt (decLt (decApos (decQuot s))) := by
    simp only [decLt]; exact replaceAll_id hl4
  have eg1 : decGt (decGt (decLt (decApos (decQuot s))))
      = decGt (decLt (decApos (decQuot s))) := by
    simp only [decGt]; exact replaceAll_id hg4
  have em1 : decAmp (decGt (decLt (decApos (decQuot s))))
      = decGt (decLt (decApos (decQuot s))) := by
    simp only [decAmp]; exact replaceAll_id hamp4
  simp only [decodeHtmlEntities, eq1, ea1, el1, eg1, em1]

/-- Witness for C2's amended theorem at a concrete entity-laden input. -/
theorem c2_witness :
    containsSub (str "&amp;") (str "a &lt;b&gt; &quot;x&quot;") = false ∧
      decodeHtmlEntities (decodeHtmlEntities (str "a &lt;b&gt; &quot;x&quot;"))
        = decodeHtmlEntities (str "a &lt;b&gt; &quot;x&quot;") :=
  ⟨by decide, c2_decode_idempotent_no_amp (str "a &lt;b&gt; &quot;x&quot;") (by decide)⟩

/-!
Field-resolution lemmas: the JavaScript truthiness fallbacks and the shape of
`parseCSharpMcpServer` under the decode outcomes.
-/

lemma isEmptyFalseOfNe {α : Type} {l : List α} (h : l ≠ []) : l.isEmpty = false := by
  cases l with
  | nil => exact absurd rfl h
  | cons a as => rfl

lemma orStr_none (d : Str) : orStr none d = d := rfl

lemma orStr_some_ne {v : Str} (h : v ≠ []) (d : Str) : orStr (some v) d = v := by
  simp [orStr, isEmptyFalseOfNe h]

lemma orStr_some_nil (d : Str) : orStr (some []) d = d := rfl

lemma orInt_none (d : Int) : orInt none d = d := rfl

lemma orInt_some_ne {n : Int} (h : n ≠ 0) (d : Int) : orInt (some n) d = n := by
  simp [orInt, h]

lemma resolveServer_id (md : Metadata) (stem bd : Str) (T : List Tool) (C D : Str) :
    (resolveServer md stem bd T C D).id = orStr md.id stem := rfl

lemma resolveServer_name (md : Metadata) (stem bd : Str) (T : List Tool) (C D : Str) :
    (resolveServer md stem bd T C D).name = orStr md.name (stem ++ str ".cs") := rfl

lemma resolveServer_description (md : Metadata) (stem bd : Str) (T : List Tool) (C D : Str) :
    (resolveServer md stem bd T C D).description
      = orStr md.description (str "MCP Server") := rfl

lemma resolveServer_longDescription (md : Metadata) (stem bd : Str) (T : List Tool) (C D : Str) :
    (resolveServer md stem bd T C D).longDescription
      = orStr md.longDescription (orStr md.description (str "MCP Server")) := rfl

lemma resolveServer_tags (md : Metadata) (stem bd : Str) (T : List Tool) (C D : Str) :
    (resolveServer md stem bd T C D).tags
      = match md.tags with
        | some (TagsVal.arr l) => l
        | some (TagsVal.scalar v) => if v.isEmpty then [] else [v]
        | none => [] := rfl

lemma resolveServer_status (md : Metadata) (stem bd : Str) (T : List Tool) (C D : Str) :
    (resolveServer md stem bd T C D).status = orStr md.status (str "stable") := rfl

lemma resolveServer_downloads (md : Metadata) (stem bd : Str) (T : List Tool) (C D : Str) :
    (resolveServer md stem bd T C D).downloads = orInt md.downloads 0 := rfl

lemma resolveServer_lastUpdated (md : Metadata) (stem bd : Str) (T : List Tool) (C D : Str) :
    (resolveServer md stem bd T C D).lastUpdated = orStr md.lastUpdated bd := rfl

lemma resolveServer_version (md : Metadata) (stem bd : Str) (T : List Tool) (C D : Str) :
    (resolveServer md stem bd T C D).version = orStr md.version (str "1.0.0") := rfl

lemma resolveServer_author (md : Metadata) (stem bd : Str) (T : List Tool) (C D : Str) :
    (resolveServer md stem bd T C D).author = orStr md.author (str "Unknown") := rfl

lemma resolveServer_license (md : Metadata) (stem bd : Str) (T : List Tool) (C D : Str) :
    (resolveServer md stem bd T C D).license = orStr md.license (str "MIT") := rfl

lemma resolveServer_createdDate (md : Metadata) (stem bd : Str) (T : List Tool) (C D : Str) :
    (resolveServer md stem bd T C D).createdDate
      = orStr md.createdDate (orStr md.lastUpdated bd) := rfl

lemma resolveServer_envVars (md : Metadata) (stem bd : Str) (T : List Tool) (C D : Str) :
    (resolveServer md stem bd T C D).envVars = md.envVars.getD [] := rfl

lemma resolveServer_displayCode (md : Metadata) (stem bd : Str) (T : List Tool) (C D : Str) :
    (resolveServer md stem bd T C D).displayCode = D := rfl

/-- When the front-matter lines are non-empty and the decoder yields `md`, the
parsed server is the resolution of `md`. -/
lemma parse_metadata {dec : List Str → Option Metadata} (bd : Str) {contents : Str}
    (stem : Str) {md : Metadata}
    (h1 : extractFrontMatterLines contents ≠ [])
    (h2 : dec (extractFrontMatterLines contents) = some md) :
    parseCSharpMcpServer dec bd contents stem
      = resolveServer md stem bd (extractToolsFromCSharp contents) contents
          (extractCodeWithoutFrontMatter contents) := by
  simp only [parseCSharpMcpServer, isEmptyFalseOfNe h1, h2, Bool.false_eq_true, if_false,
    Option.getD_some]

/-- When the front-matter lines are non-empty and the decoder fails (or yields
`null`), the parsed server is the resolution of the empty metadata. -/
lemma parse_decodeFail {dec : List Str → Option Metadata} (bd : Str) {contents : Str}
    (stem : Str)
    (h1 : extractFrontMatterLines contents ≠ [])
    (h2 : dec (extractFrontMatterLines contents) = none) :
    parseCSharpMcpServer dec bd contents stem
      = resolveServer Metadata.empty stem bd (extractToolsFromCSharp contents) contents
          (extractCodeWithoutFrontMatter contents) := by
  simp only [parseCSharpMcpServer, isEmptyFalseOfNe h1, h2, Bool.false_eq_true, if_false,
    Option.getD_none]

/-- When no front-matter lines are collected, the decoder is never consulted
and the parsed server is the resolution of the empty metadata. -/
lemma parse_noFm (dec : List Str → Option Metadata) (bd : Str) {contents : Str} (stem : Str)
    (h : extractFrontMatterLines contents = []) :
    parseCSharpMcpServer dec bd contents stem
      = resolveServer Metadata.empty stem bd (extractToolsFromCSharp contents) contents
          (extractCodeWithoutFrontMatter contents) := by
  simp only [parseCSharpMcpServer, h, List.isEmpty_nil, if_true]

/-!
Claim C3: explicit fields pass through, absent fields get their defaults.
-/

/-- Claim C3, counterexample to the claim as stated: a field explicitly
present in the decoded mapping with a falsy value does not appear unchanged.
With `description` explicitly the empty string, the `||` fallback fires and
the record carries the literal fallback instead of the stated value. -/
theorem c3_falsy_explicit_cex :
    ({ description := some [] } : Metadata).description = some [] ∧
    (parseCSharpMcpServer (fun _ => some { description := some [] })
        (str "2025-01-01") c3text (str "sample")).description = str "MCP Server" ∧
    str "MCP Server" ≠ ([] : Str) :=
  ⟨rfl, by decide, by decide⟩

/-- Claim C3, amended: for a file whose metadata block decodes successfully,
each of the ten listed fields explicitly present with a truthy value (a
non-empty string, a non-zero number, or a sequence) appears unchanged in the
record, and each absent field equals its documented default (id from the
filename stem, name from the filename with extension, the literal description
fallback, status `stable`, downloads `0`, version `1.0.0`, author `Unknown`,
license `MIT`, empty `envVars`, and the build date for `lastUpdated`). -/
theorem c3_fields_resolved (dec : List Str → Option Metadata) (bd contents stem : Str)
    (md : Metadata)
    (h1 : extractFrontMatterLines contents ≠ [])
    (h2 : dec (extractFrontMatterLines contents) = some md) :
    (∀ v, md.id = some v → v ≠ [] →
      (parseCSharpMcpServer dec bd contents stem).id = v) ∧
    (md.id = none → (parseCSharpMcpServer dec bd contents stem).id = stem) ∧
    (∀ v, md.name = some v → v ≠ [] →
      (parseCSharpMcpServer dec bd contents stem).name = v) ∧
    (md.name = none →
      (parseCSharpMcpServer dec bd contents stem).name = stem ++ str ".cs") ∧
    (∀ v, md.description = some v → v ≠ [] →
      (parseCSharpMcpServer dec bd contents stem).description = v) ∧
    (md.description = none →
      (parseCSharpMcpServer dec bd contents stem).description = str "MCP Server") ∧
    (∀ v, md.status = some v → v ≠ [] →
      (parseCSharpMcpServer dec bd contents stem).status = v) ∧
    (md.status = none →
      (parseCSharpMcpServer dec bd contents stem).status = str "stable") ∧
    (∀ n, md.downloads = some n → n ≠ 0 →
      (parseCSharpMcpServer dec bd contents stem).downloads = n) ∧
    (md.downloads = none →
      (parseCSharpMcpServer dec bd contents stem).downloads = 0) ∧
    (∀ v, md.version = some v → v ≠ [] →
      (parseCSharpMcpServer dec bd contents stem).version = v) ∧
    (md.version = none →
      (parseCSharpMcpServer dec bd contents stem).version = str "1.0.0") ∧
    (∀ v, md.author = some v → v ≠ [] →
      (parseCSharpMcpServer dec bd contents stem).author = v) ∧
    (md.author = none →
      (parseCSharpMcpServer dec bd contents stem).author = str "Unknown") ∧
    (∀ v, md.license = some v → v ≠ [] →
      (parseCSharpMcpServer dec bd contents stem).license = v) ∧
    (md.license = none →
      (parseCSharpMcpServer dec bd contents stem).license = str "MIT") ∧
    (∀ l, md.envVars = some l →
      (parseCSharpMcpServer dec bd contents stem).envVars = l) ∧
    (md.envVars = none →
      (parseCSharpMcpServer dec bd contents stem).envVars = []) ∧
    (∀ v, md.lastUpdated = some v → v ≠ [] →
      (parseCSharpMcpServer dec bd contents stem).lastUpdated = v) ∧
    (md.lastUpdated = none →
      (parseCSharpMcpServer dec bd contents stem).lastUpdated = bd) := by
  have hm := parse_metadata bd stem h1 h2
  rw [hm]
  refine ⟨?_, ?_, ?_, ?_, ?_, ?_, ?_, ?_, ?_, ?_, ?_, ?_, ?_, ?_, ?_, ?_, ?_, ?_, ?_, ?_⟩
  · intro v hv hne; rw [resolveServer_id, hv, orStr_some_ne hne]
  · intro hv; rw [resolveServer_id, hv, orStr_none]
  · intro v hv hne; rw [resolveServer_name, hv, orStr_some_ne hne]
  · intro hv; rw [resolveServer_name, hv, orStr_none]
  · intro v hv hne; rw [resolveServer_description, hv, orStr_some_ne hne]
  · intro hv; rw [resolveServer_description, hv, orStr_none]
  · intro v hv hne; rw [resolveServer_status, hv, orStr_some_ne hne]
  · intro hv; rw [resolveServer_status, hv, orStr_none]
  · intro n hv hne; rw [resolveServer_downloads, hv, orInt_some_ne hne]
  · intro hv; rw [resolveServer_downloads, hv, orInt_none]
  · intro v hv hne; rw [resolveServer_version, hv, orStr_some_ne hne]
  · intro hv; rw [resolveServer_version, hv, orStr_none]
  · intro v hv hne; rw [resolveServer_author, hv, orStr_some_ne hne]
  · intro hv; rw [resolveServer_author, hv, orStr_none]
  · intro v hv hne; rw [resolveServer_license, hv, orStr_some_ne hne]
  · intro hv; rw [resolveServer_license, hv, orStr_none]
  · intro l hv; rw [resolveServer_envVars, hv, Option.getD_some]
  · intro hv; rw [resolveServer_envVars, hv, Option.getD_none]
  · intro v hv hne; rw [resolveServer_lastUpdated, hv, orStr_some_ne hne]
  · intro hv; rw [resolveServer_lastUpdated, hv, orStr_none]

/-- Witness for C3's amended theorem: a present truthy `id`, `description`,
`downloads` and `envVars` pass through, an absent `name` takes its default. -/
theorem c3_witness :
    (parseCSharpMcpServer (fun _ => some c3meta) (str "2025-01-01") c3text
        (str "sample")).id = str "sid" ∧
    (parseCSharpMcpServer (fun _ => some c3meta) (str "2025-01-01") c3text
        (str "sample")).name = str "sample" ++ str ".cs" ∧
    (parseCSharpMcpServer (fun _ => some c3meta) (str "2025-01-01") c3text
        (str "sample")).downloads = 7 ∧
    (parseCSharpMcpServer (fun _ => some c3meta) (str "2025-01-01") c3text
        (str "sample")).envVars = [ str "K"] := by
  have h := c3_fields_resolved (fun _ => some c3meta) (str "2025-01-01") c3text
    (str "sample") c3meta (by decide) rfl
  exact ⟨h.1 (str "sid") rfl (by decide),
    h.2.2.2.1 rfl,
    h.2.2.2.2.2.2.2.2.1 7 rfl (by decide),
    h.2.2.2.2.2.2.2.2.2.2.2.2.2.2.2.2.1 [ str "K"] rfl⟩

/-!
Claim C4: scalar `tags` become a one-element sequence.
-/

/-- Claim C4, counterexample to the claim as stated: a falsy scalar (the empty
string) does not yield a one-element sequence — the ternary's `metadata.tags ?`
test fails and the record's `tags` is empty. -/
theorem c4_empty_scalar_cex :
    c4metaEmpty.tags = some (TagsVal.scalar []) ∧
    (parseCSharpMcpServer (fun _ => some c4metaEmpty) (str "2025-01-01") c3text
        (str "sample")).tags = [] ∧
    ([] : List Str) ≠ [([] : Str)] :=
  ⟨rfl, by decide, by decide⟩

/-- Claim C4, amended: when the decoded `tags` is a truthy scalar the record's
`tags` is the one-element sequence of that scalar; a falsy scalar yields the
empty sequence, as does an absent `tags`. -/
theorem c4_tags_scalar (dec : List Str → Option Metadata) (bd contents stem : Str)
    (md : Metadata)
    (h1 : extractFrontMatterLines contents ≠ [])
    (h2 : dec (extractFrontMatterLines contents) = some md) :
    (∀ v, md.tags = some (TagsVal.scalar v) → v ≠ [] →
      (parseCSharpMcpServer dec bd contents stem).tags = [v]) ∧
    (md.tags = some (TagsVal.scalar []) →
      (parseCSharpMcpServer dec bd contents stem).tags = []) ∧
    (md.tags = none → (parseCSharpMcpServer dec bd contents stem).tags = []) := by
  have hm := parse_metadata bd stem h1 h2
  rw [hm]
  refine ⟨?_, ?_, ?_⟩
  · intro v hv hne
    rw [resolveServer_tags, hv]
    simp [isEmptyFalseOfNe hne]
  · intro hv
    rw [resolveServer_tags, hv]
    rfl
  · intro hv
    rw [resolveServer_tags, hv]

/-- Witness for C4's amended theorem at the truthy scalar `alpha`. -/
theorem c4_witness :
    (parseCSharpMcpServer (fun _ => some c4meta) (str "2025-01-01") c3text
        (str "sample")).tags = [ str "alpha"] :=
  (c4_tags_scalar (fun _ => some c4meta) (str "2025-01-01") c3text (str "sample")
    c4meta (by decide) rfl).1 (str "alpha") rfl (by decide)

/-!
Claim C8: `createdDate` defaults through the resolved `lastUpdated`.
-/

/-- Claim C8, confirmed: when both `createdDate` and `lastUpdated` are absent
from the decoded metadata, the record's `createdDate` equals the record's
resolved `lastUpdated`, which is the build date.  (The source evaluates the
build-date expression separately for the two fields; both stand for the same
per-build value in this model.) -/
theorem c8_created_eq_lastUpdated (dec : List Str → Option Metadata)
    (bd contents stem : Str) (md : Metadata)
    (h1 : extractFrontMatterLines contents ≠ [])
    (h2 : dec (extractFrontMatterLines contents) = some md)
    (hc : md.createdDate = none) (hl : md.lastUpdated = none) :
    (parseCSharpMcpServer dec bd contents stem).createdDate
        = (parseCSharpMcpServer dec bd contents stem).lastUpdated ∧
      (parseCSharpMcpServer dec bd contents stem).lastUpdated = bd := by
  have hm := parse_metadata bd stem h1 h2
  rw [hm, resolveServer_createdDate, resolveServer_lastUpdated, hc, hl, orStr_none, orStr_none]
  exact ⟨rfl, rfl⟩

/-- Witness for C8 at the empty metadata mapping. -/
theorem c8_witness :
    (parseCSharpMcpServer (fun _ => some Metadata.empty) (str "2025-01-01") c3text
        (str "sample")).createdDate
      = (parseCSharpMcpServer (fun _ => some Metadata.empty) (str "2025-01-01") c3text
        (str "sample")).lastUpdated ∧
    (parseCSharpMcpServer (fun _ => some Metadata.empty) (str "2025-01-01") c3text
        (str "sample")).lastUpdated = str "2025-01-01" :=
  c8_created_eq_lastUpdated (fun _ => some Metadata.empty) (str "2025-01-01") c3text
    (str "sample") Metadata.empty (by decide) rfl rfl rfl

/-!
Claim C9: a YAML decode failure is absorbed and yields an all-default record.
-/

/-- Claim C9, confirmed: when the collected front-matter lines fail to decode
(`decodeYaml` returns `none`, modelling the caught exception), the parse still
returns a record and every metadata-derived field equals its documented
default.  The failure never escapes `parseCSharpMcpServer` — in the source it
is caught by the local try block and only logged. -/
theorem c9_decode_failure_defaults (dec : List Str → Option Metadata)
    (bd contents stem : Str)
    (h1 : extractFrontMatterLines contents ≠ [])
    (h2 : dec (extractFrontMatterLines contents) = none) :
    (parseCSharpMcpServer dec bd contents stem).id = stem ∧
    (parseCSharpMcpServer dec bd contents stem).name = stem ++ str ".cs" ∧
    (parseCSharpMcpServer dec bd contents stem).description = str "MCP Server" ∧
    (parseCSharpMcpServer dec bd contents stem).longDescription = str "MCP Server" ∧
    (parseCSharpMcpServer dec bd contents stem).tags = [] ∧
    (parseCSharpMcpServer dec bd contents stem).status = str "stable" ∧
    (parseCSharpMcpServer dec bd contents stem).downloads = 0 ∧
    (parseCSharpMcpServer dec bd contents stem).lastUpdated = bd ∧
    (parseCSharpMcpServer dec bd contents stem).version = str "1.0.0" ∧
    (parseCSharpMcpServer dec bd contents stem).author = str "Unknown" ∧
    (parseCSharpMcpServer dec bd contents stem).license = str "MIT" ∧
    (parseCSharpMcpServer dec bd contents stem).createdDate = bd ∧
    (parseCSharpMcpServer dec bd contents stem).envVars = [] := by
  have hm := parse_decodeFail bd stem h1 h2
  rw [hm]
  refine ⟨rfl, rfl, rfl, rfl, rfl, rfl, rfl, rfl, rfl, rfl, rfl, rfl, rfl⟩

/-- Witness for C9 at a concrete file with a front-matter block and an
always-failing decoder. -/
theorem c9_witness :
    (parseCSharpMcpServer (fun _ => none) (str "2025-01-01") c3text
        (str "sample")).id = str "sample" ∧
    (parseCSharpMcpServer (fun _ => none) (str "2025-01-01") c3text
        (str "sample")).lastUpdated = str "2025-01-01" := by
  have h := c9_decode_failure_defaults (fun _ => none) (str "2025-01-01") c3text
    (str "sample") (by decide) rfl
  exact ⟨h.1, h.2.2.2.2.2.2.2.1⟩

/-!
Claim C7: files without any sentinel line.
-/

lemma fmGo_noSentinel : ∀ (lines : List Str),
    (∀ l ∈ lines, trimChars l ≠ fmSentinel) → fmGo lines false = [] := by
  intro lines
  induction lines with
  | nil => intro _; rfl
  | cons l ls ih =>
    intro h
    have hl : trimChars l ≠ fmSentinel := h l (List.mem_cons_self l ls)
    simp only [fmGo, if_neg hl, Bool.false_and, Bool.false_eq_true, if_false]
    exact ih (fun x hx => h x (List.mem_cons_of_mem l hx))

lemma afterSentinel1_noSentinel : ∀ (lines : List Str),
    (∀ l ∈ lines, trimChars l ≠ fmSentinel) → afterSentinel1 lines = none := by
  intro lines
  induction lines with
  | nil => intro _; rfl
  | cons l ls ih =>
    intro h
    have hl : trimChars l ≠ fmSentinel := h l (List.mem_cons_self l ls)
    simp only [afterSentinel1, if_neg hl]
    exact ih (fun x hx => h x (List.mem_cons_of_mem l hx))

lemma extractCode_noSentinel {contents : Str}
    (h : ∀ l ∈ splitLines contents, trimChars l ≠ fmSentinel) :
    extractCodeWithoutFrontMatter contents = decodeHtmlEntities (trimChars contents) := by
  unfold extractCodeWithoutFrontMatter
  rw [afterSentinel1_noSentinel _ h]

/-- Claim C7, counterexample to the claim as stated: for a sentinel-free file
text containing an entity sequence, `displayCode` is not the trimmed original
text — the pipeline always entity-decodes the display code afterwards. -/
theorem c7_display_code_cex :
    (∀ l ∈ splitLines (str "&amp;"), trimChars l ≠ fmSentinel) ∧
    (parseCSharpMcpServer (fun _ => none) (str "2025-01-01") (str "&amp;")
        (str "x")).displayCode ≠ trimChars (str "&amp;") :=
  ⟨by decide, by decide⟩

/-- Claim C7, amended: for a file text with no sentinel line, the parsed
record has all-default metadata fields and its `displayCode` is the
HTML-entity decode of the full original text trimmed. -/
theorem c7_no_sentinel_defaults (dec : List Str → Option Metadata)
    (bd contents stem : Str)
    (h : ∀ l ∈ splitLines contents, trimChars l ≠ fmSentinel) :
    (parseCSharpMcpServer dec bd contents stem).id = stem ∧
    (parseCSharpMcpServer dec bd contents stem).name = stem ++ str ".cs" ∧
    (parseCSharpMcpServer dec bd contents stem).description = str "MCP Server" ∧
    (parseCSharpMcpServer dec bd contents stem).longDescription = str "MCP Server" ∧
    (parseCSharpMcpServer dec bd contents stem).tags = [] ∧
    (parseCSharpMcpServer dec bd contents stem).status = str "stable" ∧
    (parseCSharpMcpServer dec bd contents stem).downloads = 0 ∧
    (parseCSharpMcpServer dec bd contents stem).lastUpdated = bd ∧
    (parseCSharpMcpServer dec bd contents stem).version = str "1.0.0" ∧
    (parseCSharpMcpServer dec bd contents stem).author = str "Unknown" ∧
    (parseCSharpMcpServer dec bd contents stem).license = str "MIT" ∧
    (parseCSharpMcpServer dec bd contents stem).createdDate = bd ∧
    (parseCSharpMcpServer dec bd contents stem).envVars = [] ∧
    (parseCSharpMcpServer dec bd contents stem).displayCode
      = decodeHtmlEntities (trimChars contents) := by
  have hfm : extractFrontMatterLines contents = [] := fmGo_noSentinel _ h
  have hm := parse_noFm dec bd stem hfm
  rw [hm]
  refine ⟨rfl, rfl, rfl, rfl, rfl, rfl, rfl, rfl, rfl, rfl, rfl, rfl, rfl, ?_⟩
  rw [resolveServer_displayCode]
  exact extractCode_noSentinel h

/-- Witness for C7's amended theorem at a concrete sentinel-free file. -/
theorem c7_witness :
    (parseCSharpMcpServer (fun _ => none) (str "2025-01-01") (str " var a; ")
        (str "x")).id = str "x" ∧
    (parseCSharpMcpServer (fun _ => none) (str "2025-01-01") (str " var a; ")
        (str "x")).displayCode = decodeHtmlEntities (trimChars (str " var a; ")) := by
  have h := c7_no_sentinel_defaults (fun _ => none) (str "2025-01-01") (str " var a; ")
    (str "x") (by decide)
  exact ⟨h.1, h.2.2.2.2.2.2.2.2.2.2.2.2.2⟩

/-!
Claim C6: the assembler's treatment of the mapping key.
-/

lemma entrySpread_eq (k : Str) (v : Server) : entrySpread k v = v := rfl

/-- Claim C6, counterexample to the claim as stated: the key does not
overwrite an `id` already present in the value — the spread of the value comes
second in the object literal, so the value's own `id` prevails. -/
theorem c6_value_id_wins_cex :
    (serversArrayData [(str "k", c6server)]).map Server.id = [ str "other"] ∧
    str "other" ≠ str "k" :=
  ⟨by decide, by decide⟩

/-- Claim C6, amended: the assembler produces one output record per mapping
entry, in the mapping's iteration order, and each output record equals the
entry's value unchanged — the value's always-present `id` field overwrites the
re-asserted key, not the other way round.  (For mappings produced by this
pipeline the key always equals the value's `id`, so the two descriptions
coincide there.) -/
theorem c6_assembler_spec (m : List (Str × Server)) :
    serversArrayData m = m.map (fun kv => kv.2) := by
  unfold serversArrayData
  simp only [entrySpread_eq]

/-!
Claim C1: a failing file read inside the scan loop.
-/

lemma scanLoop_stops {readFile : Str → Option Str} {dec : List Str → Option Metadata}
    {bd : Str} {f : Str} (hf : readFile f = none) :
    ∀ (pre post : List Str) (acc : List (Str × Server)),
      scanLoop readFile dec bd (pre ++ f :: post) acc = scanLoop readFile dec bd pre acc := by
  intro pre
  induction pre with
  | nil =>
    intro post acc
    simp [scanLoop, hf]
  | cons g gs ih =>
    intro post acc
    rw [List.cons_append]
    cases hg : readFile g with
    | none => simp [scanLoop, hg]
    | some c =>
      simp only [scanLoop, hg]
      exact ih post _

/-- Claim C1, counterexample to the claim as stated: with two discovered `.cs`
files where the second read fails, `scanDirectory` still returns a mapping —
the partial one holding the record of the first file.  The failure is caught
by the function's single try/catch and nothing propagates. -/
theorem c1_partial_map_returned_cex :
    isCsFile (str "b.cs") = true ∧
    (fun f => if f = str "a.cs" then some (str "x") else none) (str "b.cs") = none ∧
    (scanDirectory (some [ str "a.cs", str "b.cs"])
        (fun f => if f = str "a.cs" then some (str "x") else none)
        (fun _ => none) (str "2025-01-01")).map Prod.fst = [ str "a"] :=
  ⟨by decide, by decide, by decide⟩

/-- Claim C1, amended: when reading a discovered file fails partway through
the scan, the loop stops (files after the failing one are not processed), the
exception is caught by the scan's try/catch, and the partial mapping holding
the records of the files already processed is returned to the caller. -/
theorem c1_read_failure_caught_partial (readFile : Str → Option Str)
    (dec : List Str → Option Metadata) (bd : Str)
    (entries pre post : List Str) (f : Str)
    (hsplit : entries.filter isCsFile = pre ++ f :: post)
    (hread : readFile f = none) :
    scanDirectory (some entries) readFile dec bd = scanLoop readFile dec bd pre [] := by
  simp only [scanDirectory]
  rw [hsplit]
  exact scanLoop_stops hread pre post []

/-- Witness for C1's amended theorem at a three-file directory whose middle
file fails to read. -/
theorem c1_witness :
    scanDirectory (some [ str "a.cs", str "b.cs", str "c.cs"])
        (fun f => if f = str "a.cs" then some (str "x") else none)
        (fun _ => none) (str "2025-01-01")
      = scanLoop (fun f => if f = str "a.cs" then some (str "x") else none)
        (fun _ => none) (str "2025-01-01") [ str "a.cs"] [] :=
  c1_read_failure_caught_partial
    (fun f => if f = str "a.cs" then some (str "x") else none)
    (fun _ => none) (str "2025-01-01")
    [ str "a.cs", str "b.cs", str "c.cs"] [ str "a.cs"] [ str "c.cs"] (str "b.cs")
    (by decide) (by decide)

/-!
Claim C10: every record is stored under its own id.
-/

lemma objSet_mem {m : List (Str × Server)} {k : Str} {v : Server} {kv : Str × Server}
    (h : kv ∈ objSet m k v) : kv ∈ m ∨ kv = (k, v) := by
  unfold objSet at h
  by_cases hc : m.any (fun p => p.1 == k) = true
  · rw [if_pos hc] at h
    obtain ⟨p, hp, hpe⟩ := List.mem_map.mp h
    by_cases hk : p.1 == k
    · right; rw [← hpe]; simp [hk]
    · left; rw [← hpe]; simp [hk]; exact hp
  · rw [if_neg hc] at h
    rcases List.mem_append.mp h with h1 | h2
    · left; exact h1
    · right; simpa using h2

/-- Claim C10, confirmed: at every point of the scan (any accumulator whose
entries already satisfy it), every key of the mapping built by `scanLoop` maps
to a record whose `id` equals that key, because each parsed record is inserted
under its own resolved `id`.  By `c6_assembler_spec` the assembler returns
each record unchanged, so the re-asserted key never changes a record of this
pipeline. -/
theorem c10_map_id_invariant (readFile : Str → Option Str)
    (dec : List Str → Option Metadata) (bd : Str) :
    ∀ (fs : List Str) (acc : List (Str × Server)),
      (∀ kv ∈ acc, kv.2.id = kv.1) →
      ∀ kv ∈ scanLoop readFile dec bd fs acc, kv.2.id = kv.1 := by
  intro fs
  induction fs with
  | nil => intro acc hacc kv hkv; exact hacc kv hkv
  | cons f fs ih =>
    intro acc hacc kv hkv
    cases hg : readFile f with
    | none =>
      simp only [scanLoop, hg] at hkv
      exact hacc kv hkv
    | some c =>
      simp only [scanLoop, hg] at hkv
      apply ih _ _ kv hkv
      intro kv' hkv'
      rcases objSet_mem hkv' with hin | heq
      · exact hacc kv' hin
      · rw [heq]

/-- Witness for C10 at a one-file directory scan. -/
theorem c10_witness :
    (parseCSharpMcpServer (fun _ => none) (str "2025-01-01") (str "x") (str "a")).id
      = str "a" :=
  c10_map_id_invariant (fun f => if f = str "a.cs" then some (str "x") else none)
    (fun _ => none) (str "2025-01-01") [ str "a.cs"] [] (by simp)
    ((str "a"), parseCSharpMcpServer (fun _ => none) (str "2025-01-01") (str "x") (str "a"))
    (by decide)

/-!
Claim C5: per-occurrence behaviour of the tool extraction.
-/

lemma memOfHeadEq {l : Str} {a : Char} (h : l.head? = some a) : a ∈ l := by
  cases l with
  | nil => simp at h
  | cons x xs =>
    simp only [List.head?_cons, Option.some.injEq] at h
    rw [← h]
    exact List.mem_cons_self x xs

lemma containsSub_single {a : Char} {s : Str} (h : a ∈ s) : containsSub [a] s = true := by
  induction s with
  | nil => simp at h
  | cons c cs ih =>
    rcases List.mem_cons.mp h with heq | hmem
    · simp [containsSub, strHasPre, heq]
    · simp [containsSub, ih hmem]

lemma methodTail_some_paren {r n : Str} (h : methodTail r = some n) : '(' ∈ r := by
  simp only [methodTail] at h
  split at h
  · exact absurd h (by simp)
  · split at h
    · rename_i hcond
      exact List.mem_of_mem_drop (List.mem_of_mem_drop (List.mem_of_mem_drop
        (List.mem_of_mem_drop (List.mem_of_mem_drop (memOfHeadEq hcond)))))
    · exact absurd h (by simp)

lemma tryMethodAt_some_marks {s n : Str} (h : tryMethodAt s = some n) :
    strHasPre pubStat s = true ∧ '(' ∈ s := by
  unfold tryMethodAt at h
  split at h
  · rename_i hpre
    exact ⟨hpre, List.mem_of_mem_drop (methodTail_some_paren h)⟩
  · exact absurd h (by simp)

/-- A successful method-regex match implies both `includes` checks of the
window loop succeed on that line. -/
lemma findMethodMatch_marks : ∀ {t n : Str}, findMethodMatch t = some n →
    containsSub pubStat t = true ∧ containsSub (str "(") t = true := by
  intro t
  induction t with
  | nil => intro n h; simp [findMethodMatch] at h
  | cons c cs ih =>
    intro n h
    cases htry : tryMethodAt (c :: cs) with
    | some m =>
      obtain ⟨hpre, hparen⟩ := tryMethodAt_some_marks htry
      constructor
      · simp [containsSub, hpre]
      · have hp : str "(" = ['('] := by decide
        rw [hp]
        exact containsSub_single hparen
    | none =>
      simp only [findMethodMatch, htry] at h
      obtain ⟨h1, h2⟩ := ih h
      exact ⟨by simp [containsSub, h1], by simp [containsSub, h2]⟩

/-- When no line of the window matches the method regex, the window scan
produces nothing. -/
lemma scanWindow_eq_none : ∀ (ls : List Str),
    (∀ j, (hj : j < ls.length) → findMethodMatch (trimChars (ls.get ⟨j, hj⟩)) = none) →
    scanWindow ls = none := by
  intro ls
  induction ls with
  | nil => intro _; rfl
  | cons l ls ih =>
    intro h
    have h0 : findMethodMatch (trimChars l) = none := h 0 (by simp)
    have htail : scanWindow ls = none :=
      ih (fun j hj => h (j + 1) (Nat.succ_lt_succ hj))
    by_cases hc : (containsSub pubStat (trimChars l)
        && containsSub (str "(") (trimChars l)) = true
    · simp [scanWindow, hc, h0, htail]
    · simp [scanWindow, hc, htail]

/-- The window scan returns the match of the first line matching the method
regex (earlier lines must not match; their `includes` checks may hold or not,
a line failing the regex is skipped either way). -/
lemma scanWindow_eq_some : ∀ (ls : List Str) (j : Nat) (hj : j < ls.length) (name : Str),
    findMethodMatch (trimChars (ls.get ⟨j, hj⟩)) = some name →
    (∀ k, (hk : k < j) → findMethodMatch (trimChars (ls.get ⟨k, Nat.lt_trans hk hj⟩)) = none) →
    scanWindow ls = some name := by
  intro ls
  induction ls with
  | nil => intro j hj; exact absurd hj (by simp)
  | cons l ls ih =>
    intro j hj name hsome hprev
    cases j with
    | zero =>
      have hsome' : findMethodMatch (trimChars l) = some name := hsome
      obtain ⟨h1, h2⟩ := findMethodMatch_marks hsome'
      simp [scanWindow, h1, h2, hsome']
    | succ jj =>
      have h0 : findMethodMatch (trimChars l) = none := hprev 0 (Nat.succ_pos jj)
      have htail : scanWindow ls = some name := by
        apply ih jj (Nat.lt_of_succ_lt_succ hj) name hsome
        intro k hk
        exact hprev (k + 1) (Nat.succ_lt_succ hk)
      by_cases hc : (containsSub pubStat (trimChars l)
          && containsSub (str "(") (trimChars l)) = true
      · simp [scanWindow, hc, h0, htail]
      · simp [scanWindow, hc, htail]

/-- Claim C5, confirmed: for an outer-scan line containing both the
`[McpServerTool` marker and a `Description(` call whose description regex
matches, exactly one tool is emitted when some line of the 9-line lookahead
window matches the method-signature regex — named after the first such line's
captured method name, after which forward scanning stops — and no tool is
emitted for the occurrence (and no error raised, the scan being total) when
the description regex fails or no window line matches. -/
theorem c5_tool_extraction (l : Str) (rest : List Str)
    (hmark : containsSub toolMarker (trimChars l) = true)
    (hdesc : containsSub descMarker (trimChars l) = true) :
    (∀ desc, findDescMatch (trimChars l) = some desc →
      ((∀ j, (hj : j < (rest.take 9).length) →
          findMethodMatch (trimChars ((rest.take 9).get ⟨j, hj⟩)) = none) →
        toolsGo (l :: rest) = toolsGo rest) ∧
      (∀ j name, (hj : j < (rest.take 9).length) →
        findMethodMatch (trimChars ((rest.take 9).get ⟨j, hj⟩)) = some name →
        (∀ k, (hk : k < j) →
          findMethodMatch (trimChars ((rest.take 9).get ⟨k, Nat.lt_trans hk hj⟩)) = none) →
        toolsGo (l :: rest) = { name := name, description := desc } :: toolsGo rest)) ∧
    (findDescMatch (trimChars l) = none → toolsGo (l :: rest) = toolsGo rest) := by
  constructor
  · intro desc hd
    constructor
    · intro hnone
      have hw := scanWindow_eq_none (rest.take 9) hnone
      simp [toolsGo, hmark, hdesc, hd, hw]
    · intro j name hj hsome hprev
      have hw := scanWindow_eq_some (rest.take 9) j hj name hsome hprev
      simp [toolsGo, hmark, hdesc, hd, hw]
  · intro hd
    simp [toolsGo, hmark, hdesc, hd]

/-- Witness for C5 at a concrete attribute occurrence followed two lines later
by a method signature. -/
theorem c5_witness :
    toolsGo [c5attrLine, str "line", c5methodLine]
      = [{ name := str "DoX", description := str "Does X" }] := by
  have hmain := ((c5_tool_extraction c5attrLine [ str "line", c5methodLine]
      (by decide) (by decide)).1 (str "Does X") (by decide)).2
  have hj : 1 < (List.take 9 [ str "line", c5methodLine]).length := by decide
  have hs : findMethodMatch
      (trimChars ((List.take 9 [ str "line", c5methodLine]).get ⟨1, Nat.one_lt_two⟩))
      = some (str "DoX") := by decide
  have hp : ∀ k, (hk : k < 1) → findMethodMatch
      (trimChars ((List.take 9 [ str "line", c5methodLine]).get ⟨k, Nat.lt_trans hk hj⟩))
      = none := by
    intro k hk
    have hk0 : k = 0 := by omega
    subst hk0
    show findMethodMatch
      (trimChars ((List.take 9 [ str "line", c5methodLine]).get ⟨0, Nat.zero_lt_two⟩))
      = none
    decide
  exact Eq.trans (hmain 1 (str "DoX") hj hs hp) (by decide)
